import Mathlib

/-! Shallow embedding of the Rit image pipeline (`src/main.rs`) and verification
of its specified properties: the label registry (get-or-assign under a single
lock, seeding from a prior manifest), the transform pipeline (resize, rotate,
flips), the per-file processing outcomes, and the end-of-run summary.
-/

/-- Allowed image file extensions, `ALLOWED_EXTENSIONS` in `main.rs`. -/
def ALLOWED_EXTENSIONS : List String := ["png", "jpg", "jpeg"]

/-- Largest value of the Rust type `u32`. -/
def U32MAX : Nat := 4294967295

/-- Round-to-nearest (halves up) of the exact fraction `n / d`, for `d > 0`:
the integer-division form of `round`, since `⌊n / d + 1 / 2⌋ = (2n + d) / (2d)`. -/
def roundDiv (n d : Nat) : Nat := (2 * n + d) / (2 * d)

/-- Rust saturating float-to-u32 cast (`as u32`) of the exact rational value
`w * p / 100` (the `main.rs` percentage arithmetic): truncation toward zero
clamped to the `u32` range, computed on the fraction's integer parts. -/
def pctBound (w : Nat) (p : ℚ) : Nat :=
  min ((((w : Int) * p.num) / ((p.den : Int) * 100)).toNat) U32MAX

/-- Modelled from the external image library's documented contract for
`DynamicImage::resize`: the image is scaled, preserving the aspect ratio, to
the maximum size that fits within the bounds `bw × bh` — the smaller of the
two bound-to-original ratios is applied to both axes, each output axis being
the rounded scaled length, at least 1, with the library's `u32::MAX` overflow
fallbacks. The exact rational ratio `r.1 / r.2` is carried as an integer
pair, so `roundDiv` computes the real-arithmetic rounding exactly. -/
def resizeFit (w h bw bh : Nat) : Nat × Nat :=
  let r : Nat × Nat := if bw * h ≤ bh * w then (bw, w) else (bh, h)
  let nw : Nat := max (roundDiv (w * r.1) r.2) 1
  let nh : Nat := max (roundDiv (h * r.1) r.2) 1
  if U32MAX < nw then (U32MAX, max (roundDiv (h * U32MAX) w) 1)
  else if U32MAX < nh then (max (roundDiv (w * U32MAX) h) 1, U32MAX)
  else (nw, nh)

/-- Image terms: a source image with its pixel dimensions, wrapped by the
external-library geometry operations exactly as the code applies them.
`resizeFitOp` is the aspect-preserving `resize`, `resizeExact` is
`resize_exact`. -/
inductive Img where
  | source (w h : Nat)
  | resizeExact (w h : Nat) (i : Img)
  | resizeFitOp (bw bh : Nat) (i : Img)
  | rotate90 (i : Img)
  | rotate180 (i : Img)
  | rotate270 (i : Img)
  | fliph (i : Img)
  | flipv (i : Img)
deriving DecidableEq

/-- The `ResizeOption` enum of `main.rs`; the float percentage is modelled
as a rational. -/
inductive ResizeOption where
  | Exact (w h : Nat)
  | Percentage (p : ℚ)
  | Width (w : Nat)
  | Height (h : Nat)
deriving DecidableEq

/-- The `Config` struct of `main.rs`; the float rotation angle is modelled
as a rational. -/
structure Config where
  resize : Option ResizeOption
  rotate : Option ℚ
  flip_horizontal : Bool
  flip_vertical : Bool

/-- Pixel dimensions of an image term, interpreting each external-library
operation by its documented effect on dimensions. -/
def dimensions : Img → Nat × Nat
  | .source w h => (w, h)
  | .resizeExact w h _ => (w, h)
  | .resizeFitOp bw bh i =>
      let d := dimensions i
      resizeFit d.1 d.2 bw bh
  | .rotate90 i => let d := dimensions i; (d.2, d.1)
  | .rotate180 i => dimensions i
  | .rotate270 i => let d := dimensions i; (d.2, d.1)
  | .fliph i => dimensions i
  | .flipv i => dimensions i

/-- Translation of `resize_image` in `main.rs`. -/
def resize_image (image : Img) (option : ResizeOption) : Img :=
  match option with
  | .Exact width height => .resizeExact width height image
  | .Percentage percent =>
      let d := dimensions image
      let new_width := pctBound d.1 percent
      let new_height := pctBound d.2 percent
      .resizeFitOp new_width new_height image
  | .Width w => .resizeFitOp w (dimensions image).2 image
  | .Height h => .resizeFitOp (dimensions image).1 h image

/-- Translation of `process_image` in `main.rs`: optional resize, then the
rotation match (whose wildcard arm only reports an invalid angle and leaves
the image unchanged), then the two flips. -/
def process_image (image : Img) (config : Config) : Img :=
  let i1 := match config.resize with
    | some resize_option => resize_image image resize_option
    | none => image
  let i2 := match config.rotate with
    | some angle =>
        if angle = 90 then .rotate90 i1
        else if angle = 180 then .rotate180 i1
        else if angle = 270 then .rotate270 i1
        else i1
    | none => i1
  let i3 := if config.flip_horizontal then .fliph i2 else i2
  if config.flip_vertical then .flipv i3 else i3

/-- Names of the pipeline stages, used to read off the order in which
operations were applied to an image term. -/
inductive OpName where
  | resizeOp
  | rotateOp
  | flipHOp
  | flipVOp
deriving DecidableEq

/-- The sequence of operations an image term has gone through, outermost
(latest) last. -/
def appliedOps : Img → List OpName
  | .source _ _ => []
  | .resizeExact _ _ i => appliedOps i ++ [.resizeOp]
  | .resizeFitOp _ _ i => appliedOps i ++ [.resizeOp]
  | .rotate90 i => appliedOps i ++ [.rotateOp]
  | .rotate180 i => appliedOps i ++ [.rotateOp]
  | .rotate270 i => appliedOps i ++ [.rotateOp]
  | .fliph i => appliedOps i ++ [.flipHOp]
  | .flipv i => appliedOps i ++ [.flipVOp]

/-- The label registry: contents of the `HashMap<String, usize>` behind the
`label_to_class_index` mutex, as an association list in insertion order. All
code paths insert a key only when it is absent, so keys are never duplicated
and the list length equals `HashMap::len`. -/
abbrev Registry := List (String × Nat)

/-- Lookup of a label's class index, `HashMap::get`. -/
def lookupLabel (r : Registry) (l : String) : Option Nat :=
  (r.find? (fun p => p.1 == l)).map Prod.snd

/-- Membership test, `HashMap::contains_key`. -/
def containsLabel (r : Registry) (l : String) : Bool :=
  (lookupLabel r l).isSome

/-- Translation of the locked block computing `class_index` in
`process_directory`: if the label is absent insert it with index equal to the
current map size, then return the label's stored index. Returns the index and
the updated registry. -/
def getOrAssign (r : Registry) (label : String) : Nat × Registry :=
  let r2 := if containsLabel r label then r else r ++ [(label, r.length)]
  ((lookupLabel r2 label).getD 0, r2)

/-- The `TrainingData` record of `main.rs` (one manifest entry). -/
structure TrainingData where
  class_index : Nat
  filepaths : String
  labels : String
  dataset : String
deriving DecidableEq

/-- One step of manifest seeding: `entry(labels).or_insert(class_index)` —
insert only when the label is absent. -/
def seedStep (r : Registry) (d : TrainingData) : Registry :=
  if containsLabel r d.labels then r else r ++ [(d.labels, d.class_index)]

/-- Translation of `read_existing_training_data`: an absent manifest yields
an empty registry; otherwise every entry is folded in with first-occurrence-
wins semantics. -/
def readExistingTrainingData : Option (List TrainingData) → Registry
  | none => []
  | some ds => ds.foldl seedStep []

/-- The run's sequence of registry interactions: each successfully decoded
file performs one atomic `getOrAssign` of its label and contributes one
`(label, class_index)` manifest pair, in processing order. -/
def runLabels (r : Registry) : List String → List (String × Nat) × Registry
  | [] => ([], r)
  | l :: ls =>
      let a := getOrAssign r l
      let rest := runLabels a.2 ls
      ((l, a.1) :: rest.1, rest.2)

/-- Registry states reachable by the code: no duplicate labels, no duplicate
indices, and every index below the map size (so a fresh index `len` is always
unused). -/
def WellFormedRegistry (r : Registry) : Prop :=
  (r.map Prod.fst).Nodup ∧ (r.map Prod.snd).Nodup ∧ ∀ p ∈ r, p.2 < r.length

instance (r : Registry) : Decidable (WellFormedRegistry r) := by
  unfold WellFormedRegistry; infer_instance

/-- Abstract per-file conditions seen by the worker closure in
`process_directory`: the file's extension, and whether the external decode,
the output-directory creation, and the image save succeed. -/
structure FileEntry where
  ext : Option String
  decodeOk : Bool
  mkdirOk : Bool
  writeOk : Bool
deriving DecidableEq

/-- Rust `str::to_lowercase` on extension strings, modelled character-wise
(structurally, over the string's character list). -/
def toLowerStr (s : String) : String := ⟨s.data.map Char.toLower⟩

/-- Outcome of the worker closure on one file. -/
inductive StepResult where
  | skippedNotEligible
  | skippedDecodeFailure
  | panicked
  | processed (writeOk : Bool)
deriving DecidableEq

/-- Translation of the per-file branch structure in `process_directory`:
files without an allowed extension are ignored; a decode failure is logged
and skipped; a directory-creation failure hits `expect` and panics; a save
failure is logged but the closure still falls through to push a manifest
record and increment the counter. -/
def processFile (f : FileEntry) : StepResult :=
  match f.ext with
  | none => .skippedNotEligible
  | some e =>
      if ALLOWED_EXTENSIONS.contains (toLowerStr e) then
        if f.decodeOk then
          if f.mkdirOk then .processed f.writeOk
          else .panicked
        else .skippedDecodeFailure
      else .skippedNotEligible

/-- Number of manifest records the outcome pushes onto `training_data`. -/
def recordContribution : StepResult → Nat
  | .processed _ => 1
  | _ => 0

/-- Amount the outcome adds to `processed_count`. -/
def countContribution : StepResult → Nat
  | .processed _ => 1
  | _ => 0

/-- The run over a list of files: a panic in a worker propagates out of the
parallel loop and aborts the run (`none`); otherwise the per-file outcomes
are collected. -/
def runFiles : List FileEntry → Option (List StepResult)
  | [] => some []
  | f :: fs =>
      let r := processFile f
      if r = .panicked then none
      else (runFiles fs).map (fun rs => r :: rs)

/-- Finite f64 division; dividing by zero yields a non-finite value,
modelled as `none`. -/
def fdiv (a b : ℚ) : Option ℚ := if b = 0 then none else some (a / b)

/-- What the end of `main` reports. -/
structure RunSummary where
  processedCount : Nat
  avgTimePerImage : Option ℚ
  zeroWarning : Bool
  exitOk : Bool
deriving DecidableEq

/-- Translation of the summary code at the end of `main`: the processed count
is the number of manifest records, the average is the elapsed duration
divided by that count with no zero guard, the zero-count warning fires when
the count is zero, and the function still returns `Ok`. -/
def mainSummary (durationSecs : ℚ) (trainingData : List TrainingData) : RunSummary :=
  let processedCount := trainingData.length
  { processedCount := processedCount
    avgTimePerImage := fdiv durationSecs (processedCount : ℚ)
    zeroWarning := processedCount = 0
    exitOk := true }

/-! Registry lemmas. -/

theorem lookupLabel_eq_none_iff {r : Registry} {l : String} :
    lookupLabel r l = none ↔ ∀ p ∈ r, p.1 ≠ l := by
  simp [lookupLabel, List.find?_eq_none]

theorem lookupLabel_mem {r : Registry} {l : String} {k : Nat}
    (h : lookupLabel r l = some k) : (l, k) ∈ r := by
  unfold lookupLabel at h
  cases hf : r.find? (fun p => p.1 == l) with
  | none => rw [hf] at h; simp at h
  | some q =>
      rw [hf] at h
      simp only [Option.map_some'] at h
      have hq : q.1 = l := by
        have := List.find?_some hf
        simpa [beq_iff_eq] using this
      have hm := List.mem_of_find?_eq_some hf
      have : q = (l, k) := by
        cases q
        simp_all
      rw [this] at hm
      exact hm

theorem lookupLabel_append_of_some {r : Registry} {l : String} {k : Nat}
    (h : lookupLabel r l = some k) (s : Registry) :
    lookupLabel (r ++ s) l = some k := by
  unfold lookupLabel at h ⊢
  cases hf : r.find? (fun p => p.1 == l) with
  | none => rw [hf] at h; simp at h
  | some q =>
      rw [hf] at h
      rw [List.find?_append, hf]
      simpa using h

theorem lookupLabel_append_of_none {r : Registry} {l : String}
    (h : lookupLabel r l = none) (s : Registry) :
    lookupLabel (r ++ s) l = lookupLabel s l := by
  unfold lookupLabel at h ⊢
  cases hf : r.find? (fun p => p.1 == l) with
  | none => rw [List.find?_append, hf]; simp
  | some q => rw [hf] at h; simp at h

theorem lookupLabel_singleton_self (l : String) (k : Nat) :
    lookupLabel [(l, k)] l = some k := by
  simp [lookupLabel]

theorem lookupLabel_singleton_of_ne {x y : String} (h : x ≠ y) (k : Nat) :
    lookupLabel [(y, k)] x = none := by
  simp [lookupLabel, h.symm]

theorem getOrAssign_of_some {r : Registry} {l : String} {k : Nat}
    (h : lookupLabel r l = some k) : getOrAssign r l = (k, r) := by
  simp [getOrAssign, containsLabel, h]

theorem getOrAssign_of_none {r : Registry} {l : String}
    (h : lookupLabel r l = none) :
    getOrAssign r l = (r.length, r ++ [(l, r.length)]) := by
  unfold getOrAssign containsLabel
  rw [h]
  simp [lookupLabel_append_of_none h, lookupLabel_singleton_self]

theorem getOrAssign_lookup_self (r : Registry) (l : String) :
    lookupLabel (getOrAssign r l).2 l = some (getOrAssign r l).1 := by
  cases h : lookupLabel r l with
  | some k => rw [getOrAssign_of_some h]; exact h
  | none =>
      rw [getOrAssign_of_none h]
      simpa using lookupLabel_append_of_none h [(l, r.length)] |>.trans
        (lookupLabel_singleton_self l r.length)

theorem getOrAssign_preserves {r : Registry} {x : String} {k : Nat}
    (h : lookupLabel r x = some k) (l : String) :
    lookupLabel (getOrAssign r l).2 x = some k := by
  cases hl : lookupLabel r l with
  | some k2 => rw [getOrAssign_of_some hl]; exact h
  | none => rw [getOrAssign_of_none hl]; exact lookupLabel_append_of_some h _

theorem getOrAssign_isSome_iff (r : Registry) (l x : String) :
    (lookupLabel (getOrAssign r l).2 x).isSome ↔
      (lookupLabel r x).isSome ∨ x = l := by
  cases hl : lookupLabel r l with
  | some k =>
      rw [getOrAssign_of_some hl]
      constructor
      · exact fun h => Or.inl h
      · rintro (h | rfl)
        · exact h
        · rw [hl]; rfl
  | none =>
      rw [getOrAssign_of_none hl]
      by_cases hx : x = l
      · subst hx
        rw [lookupLabel_append_of_none hl, lookupLabel_singleton_self]
        simp
      · cases hr : lookupLabel r x with
        | some k => rw [lookupLabel_append_of_some hr]; simp [hr]
        | none =>
            rw [lookupLabel_append_of_none hr, lookupLabel_singleton_of_ne hx]
            simp [hr, hx]

theorem mem_fst_of_mem {r : Registry} {p : String × Nat} (h : p ∈ r) :
    p.1 ∈ r.map Prod.fst :=
  List.mem_map_of_mem Prod.fst h

theorem not_mem_fst_of_lookup_none {r : Registry} {l : String}
    (h : lookupLabel r l = none) : l ∉ r.map Prod.fst := by
  intro hmem
  obtain ⟨p, hp, hpl⟩ := List.mem_map.mp hmem
  exact (lookupLabel_eq_none_iff.mp h p hp) hpl

theorem getOrAssign_wf {r : Registry} (hwf : WellFormedRegistry r) (l : String) :
    WellFormedRegistry (getOrAssign r l).2 := by
  obtain ⟨hk, hv, hb⟩ := hwf
  cases hl : lookupLabel r l with
  | some k => rw [getOrAssign_of_some hl]; exact ⟨hk, hv, hb⟩
  | none =>
      rw [getOrAssign_of_none hl]
      refine ⟨?_, ?_, ?_⟩
      · rw [List.map_append]
        simp only [List.map_cons, List.map_nil]
        rw [List.nodup_append]
        exact ⟨hk, List.nodup_singleton l,
          by simpa [List.disjoint_left] using not_mem_fst_of_lookup_none hl⟩
      · rw [List.map_append]
        simp only [List.map_cons, List.map_nil]
        rw [List.nodup_append]
        refine ⟨hv, List.nodup_singleton _, ?_⟩
        intro n hn
        obtain ⟨p, hp, hpn⟩ := List.mem_map.mp hn
        simp only [List.mem_singleton]
        intro hcontra
        rw [hcontra] at hpn
        exact absurd (hpn ▸ hb p hp) (lt_irrefl _)
      · intro p hp
        rw [List.length_append, List.length_singleton]
        rcases List.mem_append.mp hp with h1 | h2
        · exact Nat.lt_succ_of_lt (hb p h1)
        · rw [List.mem_singleton.mp h2]
          exact Nat.lt_succ_self _

theorem runLabels_persist {r : Registry} {x : String} {k : Nat}
    (h : lookupLabel r x = some k) (ls : List String) :
    lookupLabel (runLabels r ls).2 x = some k := by
  induction ls generalizing r with
  | nil => exact h
  | cons l ls ih =>
      simp only [runLabels]
      exact ih (getOrAssign_preserves h l)

theorem runLabels_record_lookup {r : Registry} {ls : List String}
    {p : String × Nat} (hp : p ∈ (runLabels r ls).1) :
    lookupLabel (runLabels r ls).2 p.1 = some p.2 := by
  induction ls generalizing r with
  | nil => simp [runLabels] at hp
  | cons l ls ih =>
      simp only [runLabels, List.mem_cons] at hp ⊢
      rcases hp with rfl | hp
      · exact runLabels_persist (getOrAssign_lookup_self r l) ls
      · exact ih hp

theorem runLabels_wf {r : Registry} (hwf : WellFormedRegistry r)
    (ls : List String) : WellFormedRegistry (runLabels r ls).2 := by
  induction ls generalizing r with
  | nil => exact hwf
  | cons l ls ih => exact ih (getOrAssign_wf hwf l)

theorem runLabels_isSome_iff (r : Registry) (ls : List String) (x : String) :
    (lookupLabel (runLabels r ls).2 x).isSome ↔
      (lookupLabel r x).isSome ∨ x ∈ ls := by
  induction ls generalizing r with
  | nil => simp [runLabels]
  | cons l ls ih =>
      simp only [runLabels, List.mem_cons]
      rw [ih, getOrAssign_isSome_iff]
      tauto

theorem mem_unique_of_snd_nodup {r : Registry} {a b : String} {k : Nat}
    (hv : (r.map Prod.snd).Nodup) (ha : (a, k) ∈ r) (hb : (b, k) ∈ r) :
    a = b := by
  induction r with
  | nil => simp at ha
  | cons p r ih =>
      simp only [List.map_cons, List.nodup_cons] at hv
      rcases List.mem_cons.mp ha with rfl | ha2
      · rcases List.mem_cons.mp hb with h | hb2
        · exact (congrArg Prod.fst h).symm
        · exact absurd (List.mem_map_of_mem Prod.snd hb2) hv.1
      · rcases List.mem_cons.mp hb with rfl | hb2
        · exact absurd (List.mem_map_of_mem Prod.snd ha2) hv.1
        · exact ih hv.2 ha2 hb2

theorem lookupLabel_inj {r : Registry} (hwf : WellFormedRegistry r)
    {a b : String} {k : Nat} (ha : lookupLabel r a = some k)
    (hb : lookupLabel r b = some k) : a = b :=
  mem_unique_of_snd_nodup hwf.2.1 (lookupLabel_mem ha) (lookupLabel_mem hb)

theorem seed_foldl_lookup (ds : List TrainingData) (acc : Registry) (L : String) :
    lookupLabel (ds.foldl seedStep acc) L =
      (lookupLabel acc L).or
        ((ds.find? (fun d => d.labels == L)).map TrainingData.class_index) := by
  induction ds generalizing acc with
  | nil => simp
  | cons d ds ih =>
      simp only [List.foldl_cons]
      rw [ih]
      by_cases hdl : d.labels = L
      · subst hdl
        cases hacc : lookupLabel acc d.labels with
        | some k =>
            have : containsLabel acc d.labels = true := by
              simp [containsLabel, hacc]
            simp [seedStep, this, hacc, List.find?_cons_of_pos]
        | none =>
            have : containsLabel acc d.labels = false := by
              simp [containsLabel, hacc]
            simp only [seedStep, this, Bool.false_eq_true, if_false]
            rw [lookupLabel_append_of_none hacc, lookupLabel_singleton_self]
            simp [List.find?_cons_of_pos]
      · have hfind : List.find? (fun x => x.labels == L) (d :: ds) =
            List.find? (fun x => x.labels == L) ds := by
          rw [List.find?_cons_of_neg]
          simp [hdl]
        rw [hfind]
        by_cases hc : containsLabel acc d.labels
        · simp [seedStep, hc]
        · simp only [seedStep, hc, Bool.false_eq_true, if_false]
          cases hacc : lookupLabel acc L with
          | some k => rw [lookupLabel_append_of_some hacc]
          | none =>
              rw [lookupLabel_append_of_none hacc,
                lookupLabel_singleton_of_ne (fun h => hdl h.symm)]

theorem seed_lookup (ds : List TrainingData) (L : String) :
    lookupLabel (readExistingTrainingData (some ds)) L =
      (ds.find? (fun d => d.labels == L)).map TrainingData.class_index := by
  rw [readExistingTrainingData, seed_foldl_lookup]
  simp [lookupLabel]

/-! Claim theorems: label registry (C1, C2, C3, C10). -/

/-- C1, counterexample: seeding from a prior manifest in which two distinct
labels carry the same recorded index makes the run hand out class index 0 to
both labels, so the claim's uniqueness fails as stated for arbitrary prior
manifests. -/
theorem C1_seeded_duplicate_index :
    (runLabels (readExistingTrainingData (some
        [⟨0, "out/0.png", "a", "out"⟩, ⟨0, "out/1.png", "b", "out"⟩]))
        ["a", "b"]).1 = [("a", 0), ("b", 0)] ∧ ("a" : String) ≠ "b" := by
  decide

/-- C1 (amended): in any run whose registry starts empty or was seeded from a
well-formed prior manifest (distinct labels carry distinct indices, each
index below the registry size — as in any manifest written by an unseeded
run), no two distinct labels ever receive the same class index and no label
ever receives more than one index over the run's get-or-assign sequence. -/
theorem C1_uniqueness (m : Option (List TrainingData)) (ls : List String)
    (hwf : WellFormedRegistry (readExistingTrainingData m))
    (p q : String × Nat)
    (hp : p ∈ (runLabels (readExistingTrainingData m) ls).1)
    (hq : q ∈ (runLabels (readExistingTrainingData m) ls).1) :
    (p.1 = q.1 → p.2 = q.2) ∧ (p.1 ≠ q.1 → p.2 ≠ q.2) := by
  have hfp := runLabels_record_lookup hp
  have hfq := runLabels_record_lookup hq
  have hwfF := runLabels_wf hwf ls
  constructor
  · intro h
    rw [h] at hfp
    exact Option.some.inj (hfp.symm.trans hfq)
  · intro hne hcontra
    exact hne (lookupLabel_inj hwfF (hcontra ▸ hfp) hfq)

/-- Witness for C1_uniqueness: an unseeded run over labels a, b, a. -/
theorem C1_uniqueness_witness :
    (("a", 0) : String × Nat) ∈
      (runLabels (readExistingTrainingData none) ["a", "b", "a"]).1 ∧
    (("b", 1) : String × Nat) ∈
      (runLabels (readExistingTrainingData none) ["a", "b", "a"]).1 ∧
    (0 : Nat) ≠ 1 :=
  ⟨by decide, by decide,
    (C1_uniqueness none ["a", "b", "a"] (by decide) ("a", 0) ("b", 1)
        (by decide) (by decide)).2 (by decide)⟩

/-- C2: the locked get-or-assign block leaves the map unchanged and returns
the stored index when the label is present; otherwise it inserts the label
at index equal to the current map size, returns that index, and affects no
other label's lookup. Stated for registry states without duplicated keys,
the only states the hash map can be in. -/
theorem C2_getOrAssign_semantics (r : Registry) (l : String)
    (_hkeys : (r.map Prod.fst).Nodup) :
    (∀ k, lookupLabel r l = some k → getOrAssign r l = (k, r)) ∧
    (lookupLabel r l = none →
      (getOrAssign r l).1 = r.length ∧
      lookupLabel (getOrAssign r l).2 l = some r.length ∧
      ∀ x, x ≠ l → lookupLabel (getOrAssign r l).2 x = lookupLabel r x) := by
  constructor
  · exact fun k h => getOrAssign_of_some h
  · intro h
    rw [getOrAssign_of_none h]
    refine ⟨rfl, ?_, ?_⟩
    · rw [lookupLabel_append_of_none h, lookupLabel_singleton_self]
    · intro x hx
      cases hr : lookupLabel r x with
      | some k => rw [lookupLabel_append_of_some hr]
      | none => rw [lookupLabel_append_of_none hr, lookupLabel_singleton_of_ne hx]

/-- Witness for C2_getOrAssign_semantics: a present and an absent label on a
concrete one-entry registry. -/
theorem C2_getOrAssign_semantics_witness :
    getOrAssign [("a", 0)] ("a") = (0, [("a", 0)]) ∧
    (getOrAssign [("a", 0)] ("b")).1 = 1 ∧
    lookupLabel (getOrAssign [("a", 0)] ("b")).2 ("b") = some 1 ∧
    lookupLabel (getOrAssign [("a", 0)] ("b")).2 ("a") = lookupLabel [("a", 0)] ("a") :=
  have h := C2_getOrAssign_semantics [("a", 0)] ("a") (by decide)
  have h2 := C2_getOrAssign_semantics [("a", 0)] ("b") (by decide)
  ⟨h.1 0 (by decide), (h2.2 (by decide)).1, (h2.2 (by decide)).2.1,
    (h2.2 (by decide)).2.2 ("a") (by decide)⟩

/-- C3: seeding from a prior manifest whose first entry for label L records
index k makes every get-or-assign of L in the new run return k — every
manifest record for L carries k and the final registry still maps L to k. -/
theorem C3_seed_stability (ds : List TrainingData) (L : String) (k : Nat)
    (ls : List String)
    (hfirst : (ds.find? (fun d => d.labels == L)).map TrainingData.class_index
      = some k) :
    (∀ p ∈ (runLabels (readExistingTrainingData (some ds)) ls).1,
        p.1 = L → p.2 = k) ∧
    lookupLabel (runLabels (readExistingTrainingData (some ds)) ls).2 L
      = some k := by
  have hseed : lookupLabel (readExistingTrainingData (some ds)) L = some k := by
    rw [seed_lookup]; exact hfirst
  have hfin := runLabels_persist hseed ls
  refine ⟨?_, hfin⟩
  intro p hp hL
  have hrec := runLabels_record_lookup hp
  rw [hL] at hrec
  exact Option.some.inj (hrec.symm.trans hfin)

/-- Witness for C3_seed_stability: label b seeded at index 3 (duplicate later
entry ignored) keeps index 3 in a run that meets b again. -/
theorem C3_seed_stability_witness :
    ((List.find? (fun d => d.labels == "b")
        [⟨0, "out/0.png", "a", "out"⟩, ⟨3, "out/1.png", "b", "out"⟩,
          ⟨7, "out/2.png", "b", "out"⟩]).map TrainingData.class_index)
      = some 3 ∧
    lookupLabel (runLabels (readExistingTrainingData (some
        [⟨0, "out/0.png", "a", "out"⟩, ⟨3, "out/1.png", "b", "out"⟩,
          ⟨7, "out/2.png", "b", "out"⟩])) ["b", "c"]).2 ("b") = some 3 :=
  ⟨by decide,
    (C3_seed_stability
        [⟨0, "out/0.png", "a", "out"⟩, ⟨3, "out/1.png", "b", "out"⟩,
          ⟨7, "out/2.png", "b", "out"⟩] ("b") 3 ["b", "c"] (by decide)).2⟩

/-- C10, counterexample: two schedules of the same two-file corpus — the
single-threaded discovery order and a parallel completion order — produce
different final registry mappings. -/
theorem C10_order_dependent_mapping :
    lookupLabel (runLabels (readExistingTrainingData none) ["a", "b"]).2 ("a")
      = some 0 ∧
    lookupLabel (runLabels (readExistingTrainingData none) ["b", "a"]).2 ("a")
      = some 1 ∧
    (runLabels (readExistingTrainingData none) ["a", "b"]).2 ≠
      (runLabels (readExistingTrainingData none) ["b", "a"]).2 := by
  decide

/-- C10 (amended): because the check-then-assign is one atomic region, a run
with any worker count is a serialization — some permutation — of the per-file
get-or-assign operations, and every such schedule yields a registry over
exactly the labels of the single-threaded run, with uniqueness of indices
and stability of seeded labels intact; only the index values depend on the
processing order. -/
theorem C10_interleaving_invariants (seed : Registry) (ls ls2 : List String)
    (hperm : ls2.Perm ls) (hwf : WellFormedRegistry seed) :
    (∀ x, (lookupLabel (runLabels seed ls2).2 x).isSome ↔
        (lookupLabel (runLabels seed ls).2 x).isSome) ∧
    WellFormedRegistry (runLabels seed ls2).2 ∧
    (∀ x k, lookupLabel seed x = some k →
        lookupLabel (runLabels seed ls2).2 x = some k) := by
  refine ⟨?_, runLabels_wf hwf ls2, fun x k h => runLabels_persist h ls2⟩
  intro x
  rw [runLabels_isSome_iff, runLabels_isSome_iff]
  constructor
  · rintro (h | h)
    · exact Or.inl h
    · exact Or.inr (hperm.mem_iff.mp h)
  · rintro (h | h)
    · exact Or.inl h
    · exact Or.inr (hperm.mem_iff.mpr h)

/-- Witness for C10_interleaving_invariants: the reversed schedule of a
two-label corpus still yields a well-formed registry. -/
theorem C10_interleaving_invariants_witness :
    WellFormedRegistry (runLabels [] ["b", "a"]).2 :=
  (C10_interleaving_invariants [] ["a", "b"] ["b", "a"] (by decide)
    (by decide)).2.1

/-! Claim theorems: transform pipeline (C6, C7, C8). -/

theorem appliedOps_resize_image (i : Img) (o : ResizeOption) :
    appliedOps (resize_image i o) = appliedOps i ++ [OpName.resizeOp] := by
  cases o <;> rfl

/-- C6: process_image applies the stages in the fixed order
resize → rotate → flip-horizontal → flip-vertical (each stage contributing
exactly when configured), and a configured rotation angle outside
90/180/270 contributes no geometric change: the result equals processing
with no rotation configured — the bad angle is only reported, never a
failure of the run. -/
theorem C6_pipeline_order (img : Img) (cfg : Config) :
    (appliedOps (process_image img cfg) =
      appliedOps img
        ++ (match cfg.resize with
            | some _ => [OpName.resizeOp]
            | none => [])
        ++ (match cfg.rotate with
            | some a =>
                if a = 90 ∨ a = 180 ∨ a = 270 then [OpName.rotateOp] else []
            | none => [])
        ++ (if cfg.flip_horizontal then [OpName.flipHOp] else [])
        ++ (if cfg.flip_vertical then [OpName.flipVOp] else [])) ∧
    (∀ a, cfg.rotate = some a → a ≠ 90 → a ≠ 180 → a ≠ 270 →
      process_image img cfg =
        process_image img
          ⟨cfg.resize, none, cfg.flip_horizontal, cfg.flip_vertical⟩) := by
  obtain ⟨ro, ra, fh, fv⟩ := cfg
  constructor
  · cases ro <;> cases ra <;> cases fh <;> cases fv <;>
      simp only [process_image, appliedOps, appliedOps_resize_image] <;>
      split_ifs <;>
      simp_all [appliedOps, appliedOps_resize_image, List.append_assoc]
  · intro a ha h90 h180 h270
    simp only at ha
    subst ha
    simp [process_image, h90, h180, h270]

/-- Witness for C6_pipeline_order: a configured angle of 45 degrees leaves
the image exactly as a configuration with no rotation does. -/
theorem C6_pipeline_order_witness :
    process_image (Img.source 2 3) ⟨none, some 45, false, false⟩ =
      process_image (Img.source 2 3) ⟨none, none, false, false⟩ :=
  (C6_pipeline_order (Img.source 2 3) ⟨none, some 45, false, false⟩).2 45
    rfl (by decide) (by decide) (by decide)

theorem roundDiv_exact {w k : Nat} (hw : 0 < w) : roundDiv (w * k) w = k := by
  unfold roundDiv
  have h1 : 2 * (w * k) + w = w * (2 * k + 1) := by ring
  have h2 : 2 * w = w * 2 := by ring
  rw [h1, h2, Nat.mul_div_mul_left _ _ hw]
  omega

theorem roundDiv_le_of_le {n d m : Nat} (hd : 0 < d) (h : n ≤ d * m) :
    roundDiv n d ≤ m := by
  unfold roundDiv
  rw [Nat.lt_succ_iff.symm, Nat.div_lt_iff_lt_mul (by omega : 0 < 2 * d)]
  have hexp : (m + 1) * (2 * d) = 2 * (d * m) + 2 * d := by ring
  rw [hexp]
  omega

/-- The fit-within-bounds resize keeps the requested axis exactly and derives
the other axis proportionally, when the bound on the other axis is the
original length (the `main.rs` fixed-width call shape, width bound not above
the original width). -/
theorem resizeFit_width {w W H : Nat} (h1 : 1 ≤ w) (h2 : w ≤ W) (h3 : 1 ≤ H)
    (h4 : W ≤ U32MAX) (h5 : H ≤ U32MAX) :
    resizeFit W H w H = (w, max (roundDiv (H * w) W) 1) := by
  have hW : 0 < W := lt_of_lt_of_le h1 h2
  have hsel : w * H ≤ H * W := by
    calc w * H ≤ W * H := Nat.mul_le_mul_right H h2
    _ = H * W := Nat.mul_comm W H
  have hnw : roundDiv (W * w) W = w := roundDiv_exact hW
  have hnh : roundDiv (H * w) W ≤ H := by
    refine roundDiv_le_of_le hW ?_
    calc H * w ≤ H * W := Nat.mul_le_mul_left H h2
    _ = W * H := Nat.mul_comm H W
  simp only [resizeFit, if_pos hsel, hnw]
  rw [Nat.max_eq_left h1]
  rw [if_neg (not_lt.mpr (le_trans h2 h4))]
  rw [if_neg (not_lt.mpr (le_trans (Nat.max_le.mpr ⟨hnh, h3⟩) h5))]

/-- Symmetric fixed-height shape: the height bound is met exactly and the
width is derived proportionally. -/
theorem resizeFit_height {h W H : Nat} (h1 : 1 ≤ h) (h2 : h ≤ H) (h3 : 1 ≤ W)
    (h4 : W ≤ U32MAX) (h5 : H ≤ U32MAX) :
    resizeFit W H W h = (max (roundDiv (W * h) H) 1, h) := by
  have hH : 0 < H := lt_of_lt_of_le h1 h2
  have hW : 0 < W := h3
  rcases Nat.lt_or_ge h H with hlt | hge
  · have hsel : ¬ W * H ≤ h * W := by
      have : h * W < H * W := (Nat.mul_lt_mul_right hW).mpr hlt
      rw [Nat.mul_comm H W] at this
      omega
    have hnh : roundDiv (H * h) H = h := roundDiv_exact hH
    have hnw : roundDiv (W * h) H ≤ W := by
      refine roundDiv_le_of_le hH ?_
      calc W * h ≤ W * H := Nat.mul_le_mul_left W h2
      _ = H * W := Nat.mul_comm W H
    simp only [resizeFit, if_neg hsel, hnh]
    rw [Nat.max_eq_left h1]
    rw [if_neg (not_lt.mpr (le_trans (Nat.max_le.mpr ⟨hnw, h3⟩) h4))]
    rw [if_neg (not_lt.mpr (le_trans h2 h5))]
  · have heq : h = H := le_antisymm h2 hge
    subst heq
    have hsel : W * h ≤ h * W := le_of_eq (Nat.mul_comm W h)
    have hnw : roundDiv (W * W) W = W := roundDiv_exact hW
    have hnh : roundDiv (h * W) W = h := by
      rw [Nat.mul_comm h W]
      exact roundDiv_exact hW
    have hrhs : roundDiv (W * h) h = W := by
      rw [Nat.mul_comm W h]
      exact roundDiv_exact hH
    simp only [resizeFit, if_pos hsel, hnw, hnh, hrhs]
    rw [Nat.max_eq_left h3, Nat.max_eq_left h1]
    rw [if_neg (not_lt.mpr h4), if_neg (not_lt.mpr h5)]

/-- Bridge: `roundDiv` computes the round-to-nearest of the exact rational
fraction, justifying the integer encoding of the real arithmetic. -/
theorem roundDiv_eq_round (n d : Nat) (hd : 0 < d) :
    (roundDiv n d : ℤ) = round ((n : ℚ) / (d : ℚ)) := by
  rw [round_eq]
  have hd' : ((d : ℚ)) ≠ 0 := by positivity
  have harg : (n : ℚ) / (d : ℚ) + 1 / 2 =
      (((2 * n + d : ℕ) : ℤ) : ℚ) / ((2 * d : ℕ) : ℚ) := by
    push_cast
    field_simp
    ring
  rw [harg, Rat.floor_intCast_div_natCast]
  simp only [roundDiv]
  push_cast [Int.ofNat_ediv]
  rfl

/-- Bridge: `pctBound` is the saturating truncation of the exact rational
value w * p / 100, justifying the integer encoding. -/
theorem pctBound_eq_floor (w : Nat) (p : ℚ) :
    pctBound w p = min (Int.toNat ⌊(w : ℚ) * p / 100⌋) U32MAX := by
  unfold pctBound
  have hden : ((p.den : ℚ)) ≠ 0 := by
    exact_mod_cast p.den_nz
  have harg : (w : ℚ) * p / 100 =
      (((w : ℤ) * p.num : ℤ) : ℚ) / (((p.den * 100 : ℕ) : ℚ)) := by
    conv_lhs => rw [← Rat.num_div_den p]
    push_cast
    field_simp
  rw [harg, Rat.floor_intCast_div_natCast]
  congr 1

/-- C7, counterexample: fixed-width(1600) on an 800×600 image does not make
the output width 1600 — the underlying fit-within-bounds resize is capped by
the original-height bound, so the image stays 800×600. -/
theorem C7_width_target_not_met :
    dimensions (resize_image (Img.source 800 600) (ResizeOption.Width 1600))
      = (800, 600) ∧
    (dimensions (resize_image (Img.source 800 600)
        (ResizeOption.Width 1600))).1 ≠ 1600 := by
  decide

/-- C7 (amended): for a non-enlarging target (1 ≤ w ≤ original width),
fixed-width resizing makes the output width exactly w with the height
derived proportionally as round(height·w/width), at least 1 — symmetrically
for fixed-height — and fixed-width(400) on 800×600 yields 400×300. An
enlarging target is capped by the original-length bound on the other axis
and is not met. -/
theorem C7_aspect_preserving_resize :
    (∀ w W H : Nat, 1 ≤ w → w ≤ W → 1 ≤ H → W ≤ U32MAX → H ≤ U32MAX →
      dimensions (resize_image (Img.source W H) (ResizeOption.Width w))
        = (w, max (roundDiv (H * w) W) 1)) ∧
    (∀ h W H : Nat, 1 ≤ h → h ≤ H → 1 ≤ W → W ≤ U32MAX → H ≤ U32MAX →
      dimensions (resize_image (Img.source W H) (ResizeOption.Height h))
        = (max (roundDiv (W * h) H) 1, h)) ∧
    dimensions (resize_image (Img.source 800 600) (ResizeOption.Width 400))
      = (400, 300) := by
  refine ⟨?_, ?_, by decide⟩
  · intro w W H h1 h2 h3 h4 h5
    have hd : dimensions (resize_image (Img.source W H) (ResizeOption.Width w))
        = resizeFit W H w H := rfl
    rw [hd, resizeFit_width h1 h2 h3 h4 h5]
  · intro h W H h1 h2 h3 h4 h5
    have hd : dimensions (resize_image (Img.source W H) (ResizeOption.Height h))
        = resizeFit W H W h := rfl
    rw [hd, resizeFit_height h1 h2 h3 h4 h5]

/-- Witness for C7_aspect_preserving_resize: the claim's own example. -/
theorem C7_aspect_preserving_resize_witness :
    dimensions (resize_image (Img.source 800 600) (ResizeOption.Width 400))
      = (400, max (roundDiv (600 * 400) 800) 1) :=
  C7_aspect_preserving_resize.1 400 800 600 (by decide) (by decide) (by decide)
    (by decide) (by decide)

/-- The fit-within-bounds resize never exceeds either bound (for nonzero
inputs and bounds within the u32 range). -/
theorem resizeFit_le {w h bw bh : Nat} (hw : 1 ≤ w) (hh : 1 ≤ h)
    (hbw : 1 ≤ bw) (hbh : 1 ≤ bh) (hbwc : bw ≤ U32MAX) (hbhc : bh ≤ U32MAX) :
    (resizeFit w h bw bh).1 ≤ bw ∧ (resizeFit w h bw bh).2 ≤ bh := by
  by_cases hsel : bw * h ≤ bh * w
  · have hnw : roundDiv (w * bw) w = bw := roundDiv_exact hw
    have hnh : roundDiv (h * bw) w ≤ bh := by
      refine roundDiv_le_of_le hw ?_
      calc h * bw = bw * h := Nat.mul_comm h bw
      _ ≤ bh * w := hsel
      _ = w * bh := Nat.mul_comm bh w
    simp only [resizeFit, if_pos hsel, hnw]
    rw [Nat.max_eq_left hbw]
    rw [if_neg (not_lt.mpr hbwc)]
    rw [if_neg (not_lt.mpr (le_trans (Nat.max_le.mpr ⟨hnh, hbh⟩) hbhc))]
    exact ⟨le_rfl, Nat.max_le.mpr ⟨hnh, hbh⟩⟩
  · have hsel2 : bh * w ≤ bw * h := le_of_not_le hsel
    have hnh : roundDiv (h * bh) h = bh := roundDiv_exact hh
    have hnw : roundDiv (w * bh) h ≤ bw := by
      refine roundDiv_le_of_le hh ?_
      calc w * bh = bh * w := Nat.mul_comm w bh
      _ ≤ bw * h := hsel2
      _ = h * bw := Nat.mul_comm bw h
    simp only [resizeFit, if_neg hsel, hnh]
    rw [Nat.max_eq_left hbh]
    rw [if_neg (not_lt.mpr (le_trans (Nat.max_le.mpr ⟨hnw, hbw⟩) hbwc))]
    rw [if_neg (not_lt.mpr hbhc)]
    exact ⟨Nat.max_le.mpr ⟨hnw, hbw⟩, le_rfl⟩

/-- C8, counterexample: percentage(55) on a 10×3 image yields 3×1, not the
claimed independently floor-scaled 5×1 (⌊10·55/100⌋ = 5, ⌊3·55/100⌋ = 1):
the code passes the floored axes as bounds to the aspect-preserving fit
resize, which applies the smaller ratio to both axes. -/
theorem C8_percentage_axes_not_independent :
    dimensions (resize_image (Img.source 10 3) (ResizeOption.Percentage 55))
      = (3, 1) ∧
    (10 * 55 / 100, 3 * 55 / 100) = (5, 1) ∧
    ((3 : Nat), (1 : Nat)) ≠ ((5 : Nat), (1 : Nat)) := by
  decide

/-- C8 (amended): percentage(p) computes the saturating-truncated bounds
⌊w·p/100⌋ × ⌊h·p/100⌋ and applies the aspect-preserving fit resize, so each
output axis is at most its floored bound (met exactly when the bounds keep
the original aspect ratio); in particular percentage(50) on 800×600 yields
400×300. -/
theorem C8_percentage_bounds :
    (∀ (w h : Nat) (p : ℚ), 1 ≤ w → 1 ≤ h →
      1 ≤ pctBound w p → 1 ≤ pctBound h p →
      (dimensions (resize_image (Img.source w h)
          (ResizeOption.Percentage p))).1 ≤ pctBound w p ∧
      (dimensions (resize_image (Img.source w h)
          (ResizeOption.Percentage p))).2 ≤ pctBound h p) ∧
    dimensions (resize_image (Img.source 800 600) (ResizeOption.Percentage 50))
      = (400, 300) := by
  refine ⟨?_, by decide⟩
  intro w h p hw hh hbw hbh
  have hd : dimensions (resize_image (Img.source w h)
      (ResizeOption.Percentage p))
      = resizeFit w h (pctBound w p) (pctBound h p) := rfl
  rw [hd]
  exact resizeFit_le hw hh hbw hbh (min_le_right _ _) (min_le_right _ _)

/-- Witness for C8_percentage_bounds at the counterexample input. -/
theorem C8_percentage_bounds_witness :
    (dimensions (resize_image (Img.source 10 3)
        (ResizeOption.Percentage 55))).1 ≤ pctBound 10 55 ∧
    (dimensions (resize_image (Img.source 10 3)
        (ResizeOption.Percentage 55))).2 ≤ pctBound 3 55 :=
  C8_percentage_bounds.1 10 3 55 (by decide) (by decide) (by decide) (by decide)

/-! Claim theorems: per-file outcomes and summary (C4, C5, C9). -/

/-- C4: code behavior at the divergence point — a file with an allowed
extension that decodes but fails to save is still given a manifest record
and still counted as processed (the save error is only logged), while a
decode failure correctly produces no record and no count. -/
theorem C4_write_failure_still_recorded :
    processFile ⟨some ("png"), true, true, false⟩ = StepResult.processed false ∧
    recordContribution (processFile ⟨some ("png"), true, true, false⟩) = 1 ∧
    countContribution (processFile ⟨some ("png"), true, true, false⟩) = 1 ∧
    processFile ⟨some ("png"), false, true, true⟩
      = StepResult.skippedDecodeFailure ∧
    recordContribution (processFile ⟨some ("png"), false, true, true⟩) = 0 ∧
    countContribution (processFile ⟨some ("png"), false, true, true⟩) = 0 := by
  decide

/-- C5, counterexample: a directory-creation failure on the first eligible
file hits `expect` and panics, aborting the run — the second, healthy file
is never processed, contradicting skip-and-continue. -/
theorem C5_mkdir_failure_aborts :
    runFiles [⟨some ("png"), true, false, true⟩, ⟨some ("png"), true, true, true⟩]
      = none := by
  decide

/-- C5 (amended): a decode failure is recoverable — the file is skipped with
a report and the run continues over the remaining files — but a
directory-creation failure is not: a file whose processing panics in
`create_dir_all` aborts the whole run. -/
theorem C5_error_containment :
    (∀ f rest, processFile f = StepResult.skippedDecodeFailure →
      runFiles (f :: rest)
        = (runFiles rest).map
            (fun rs => StepResult.skippedDecodeFailure :: rs)) ∧
    (∀ fs f, f ∈ fs → processFile f = StepResult.panicked →
      runFiles fs = none) := by
  constructor
  · intro f rest h
    simp [runFiles, h]
  · intro fs
    induction fs with
    | nil => intro f hmem _; simp at hmem
    | cons g gs ih =>
        intro f hmem hpanic
        rcases List.mem_cons.mp hmem with rfl | h2
        · simp [runFiles, hpanic]
        · have hnone := ih f h2 hpanic
          simp [runFiles, hnone]

/-- Witness for C5_error_containment: a decode-failing file followed by a
healthy file, and a healthy file followed by a mkdir-failing file. -/
theorem C5_error_containment_witness :
    runFiles [⟨some ("png"), false, true, true⟩, ⟨some ("jpg"), true, true, true⟩]
      = some [StepResult.skippedDecodeFailure, StepResult.processed true] ∧
    runFiles [⟨some ("png"), true, true, true⟩, ⟨some ("png"), true, false, true⟩]
      = none := by
  refine ⟨?_, ?_⟩
  · rw [C5_error_containment.1 ⟨some ("png"), false, true, true⟩
      [⟨some ("jpg"), true, true, true⟩] (by decide)]
    decide
  · exact C5_error_containment.2
      [⟨some ("png"), true, true, true⟩, ⟨some ("png"), true, false, true⟩]
      ⟨some ("png"), true, false, true⟩ (by decide) (by decide)

/-- C9, counterexample: with zero processed files, `main` computes the
average before any zero check — an unguarded division by zero whose f64
result is non-finite — even though it does warn and does exit without
error. -/
theorem C9_zero_count_division :
    (mainSummary 5 []).avgTimePerImage = none ∧
    (mainSummary 5 []).zeroWarning = true ∧
    (mainSummary 5 []).exitOk = true := by
  refine ⟨?_, ?_, rfl⟩
  · simp [mainSummary, fdiv]
  · simp [mainSummary]

/-- C9 (amended): the average-time-per-file is the duration divided by the
processed count with no zero guard — non-finite exactly when the count is
zero — while a zero-count run still warns and completes without error, and
a nonzero count yields the finite average duration/count. -/
theorem C9_summary_behavior (durationSecs : ℚ) (data : List TrainingData) :
    ((mainSummary durationSecs data).avgTimePerImage = none ↔
      data.length = 0) ∧
    ((mainSummary durationSecs data).zeroWarning = true ↔ data.length = 0) ∧
    (mainSummary durationSecs data).exitOk = true ∧
    (data.length ≠ 0 →
      (mainSummary durationSecs data).avgTimePerImage
        = some (durationSecs / (data.length : ℚ))) := by
  by_cases hc : data.length = 0
  · simp [mainSummary, fdiv, hc]
  · have hq : ((data.length : ℚ)) ≠ 0 := by exact_mod_cast hc
    simp [mainSummary, fdiv, hc, hq]

/-- Witness for C9_summary_behavior: a one-record run has the finite average
duration / 1. -/
theorem C9_summary_behavior_witness :
    (mainSummary 6 [⟨0, "f", "a", "d"⟩]).avgTimePerImage
      = some (6 / (([⟨0, "f", "a", "d"⟩] : List TrainingData).length : ℚ)) :=
  (C9_summary_behavior 6 [⟨0, "f", "a", "d"⟩]).2.2.2 (by decide)
